import Mathlib

/-!
# TerrabaseDB core: shallow embedding and verification

This file embeds the core of the TerrabaseDB server (an in-memory
key/value database with disk persistence and rotating snapshots) in
Lean 4 and proves properties of the embedded code.

Sources embedded (paths relative to the repository root):
* `server/src/coredb/mod.rs` — `Coretable`, `Data`, `Shared::run_bgsave`
* `server/src/kvengine/{get,set,update,flushdb,dbsize}.rs` — command handlers
* `server/src/diskstore/mod.rs` — `get_saved`, `flush_data` (bincode
  serialization of `(Vec<String>, Vec<Vec<u8>>)`)
* `server/src/diskstore/snapshot.rs` — `SnapshotEngine::mksnap`, `queue::Queue`
* `server/src/dbnet.rs` — `Listener::accept` exponential backoff

Modelling conventions:
* Rust `String` keys and `Bytes` values are byte sequences, modelled as
  `List Nat` (each entry a byte value; byte bounds appear as explicit
  hypotheses where they matter).
* The `HashMap<String, Data>` is modelled as an association list
  `List (Bytes × Data)`; insertion appends, so iteration order is
  insertion order (a deterministic refinement of `HashMap` iteration).
* `usize` lengths pass through bincode as 64-bit little-endian words;
  the embedding makes the `% 2^64` truncation explicit.
* Effects (lock acquisition, socket responses, file writes/deletes) are
  returned as explicit lists/state.
-/

namespace TDB

/-- A byte string: Rust `String` (UTF-8 bytes) or `bytes::Bytes` content. -/
abbrev Bytes := List Nat

/-- `coredb::Data` — a wrapper around a `Bytes` blob
(`server/src/coredb/mod.rs`, `pub struct Data { blob: Bytes }`). -/
structure Data where
  blob : Bytes
deriving DecidableEq, Repr

/-- `Data::from_string` (`coredb/mod.rs`): build a blob from the bytes of a
string. -/
def Data.from_string (val : Bytes) : Data := ⟨val⟩

/-- `Data::from_blob` (`coredb/mod.rs`). -/
def Data.from_blob (b : Bytes) : Data := ⟨b⟩

/-- `Data::get_blob` (`coredb/mod.rs`). -/
def Data.get_blob (d : Data) : Bytes := d.blob

/-- The in-memory map `HashMap<String, Data>`, as an association list with
insertion-order iteration. -/
abbrev CoreMap := List (Bytes × Data)

/-- `HashMap::get` — the value bound to `k`, if any (first matching entry). -/
def hmGet (m : CoreMap) (k : Bytes) : Option Data :=
  (m.find? fun p => p.1 = k).map (fun p => p.2)

/-- `HashMap` key membership (`Entry::Occupied` vs `Entry::Vacant`). -/
def hmContains (m : CoreMap) (k : Bytes) : Bool :=
  (m.find? fun p => p.1 = k).isSome

/-- `HashMap::insert` / `Entry` insertion semantics: replace the value if the
key is present, otherwise append a fresh binding. -/
def hmInsert (m : CoreMap) (k : Bytes) (v : Data) : CoreMap :=
  if hmContains m k then
    m.map (fun p => if p.1 = k then (p.1, v) else p)
  else
    m ++ [(k, v)]

/-- `coredb::Coretable` (`coredb/mod.rs`): the core map plus the `terminate`
flag, protected together by one reader/writer lock. -/
structure Coretable where
  coremap : CoreMap
  terminate : Bool
deriving DecidableEq, Repr

/-- `Coretable::get_ref` (`coredb/mod.rs`). -/
def Coretable.get_ref (t : Coretable) : CoreMap := t.coremap

/-- Canned response tokens and response items written by the handlers
(`protocol::responses::fresp`, `resp::{GroupBegin, BytesWrapper}`). -/
inductive Resp where
  /-- `R_OKAY` -/
  | okay : Resp
  /-- `R_NIL` -/
  | nil : Resp
  /-- `groups::NIL` (the NIL group token used by GET) -/
  | nilGroup : Resp
  /-- `R_ACTION_ERR` -/
  | actionErr : Resp
  /-- `R_OVERWRITE_ERR` -/
  | overwriteErr : Resp
  /-- `GroupBegin(n)` -/
  | groupBegin : Nat → Resp
  /-- `BytesWrapper(value)` -/
  | value : Bytes → Resp
  /-- an integer response (`dbsize` writes `len`) -/
  | int : Nat → Resp
deriving DecidableEq, Repr

/-- A table-lock acquisition performed by a handler. -/
inductive LockEv where
  /-- `CoreDB::acquire_read` -/
  | readLock : LockEv
  /-- `CoreDB::acquire_write` -/
  | writeLock : LockEv
deriving DecidableEq, Repr

/-- Result of running one command handler: the responses written to the
connection, the lock acquisitions performed, and the table afterwards. -/
structure HandlerOut where
  resp : List Resp
  locks : List LockEv
  table : Coretable
deriving DecidableEq, Repr

/-- `kvengine::set::set` (`kvengine/set.rs`): with exactly 2 arguments,
take the write lock; if the entry for the key is `Vacant`, insert
`Data::from_string(value)` and reply `R_OKAY`, otherwise reply
`R_OVERWRITE_ERR`. Any other arity replies `R_ACTION_ERR` before touching
the table. -/
def set (st : Coretable) (act : List Bytes) : HandlerOut :=
  match act with
  | [k, v] =>
    if hmContains st.coremap k then
      -- Entry::Occupied: `did_we = false` → `R_OVERWRITE_ERR`
      ⟨[Resp.overwriteErr], [LockEv.writeLock], st⟩
    else
      -- Entry::Vacant: insert and `R_OKAY`
      ⟨[Resp.okay], [LockEv.writeLock],
        { st with coremap := hmInsert st.coremap k (Data.from_string v) }⟩
  | _ => ⟨[Resp.actionErr], [], st⟩

/-- `kvengine::update::update` (`kvengine/update.rs`): with exactly 2
arguments, take the write lock; if the entry is `Occupied`, replace the
value and reply `R_OKAY`, otherwise reply `R_NIL`. Any other arity replies
`R_ACTION_ERR` before touching the table. -/
def update (st : Coretable) (act : List Bytes) : HandlerOut :=
  match act with
  | [k, v] =>
    if hmContains st.coremap k then
      ⟨[Resp.okay], [LockEv.writeLock],
        { st with coremap := hmInsert st.coremap k (Data.from_string v) }⟩
    else
      ⟨[Resp.nil], [LockEv.writeLock], st⟩
  | _ => ⟨[Resp.actionErr], [], st⟩

/-- `kvengine::get::get` (`kvengine/get.rs`): with exactly 1 argument, write
`GroupBegin(1)`, take the read lock, and reply with the value blob or the
NIL group token. Any other arity replies `R_ACTION_ERR` before touching the
table. -/
def get (st : Coretable) (act : List Bytes) : HandlerOut :=
  match act with
  | [k] =>
    match hmGet st.coremap k with
    | some d => ⟨[Resp.groupBegin 1, Resp.value d.get_blob], [LockEv.readLock], st⟩
    | none => ⟨[Resp.groupBegin 1, Resp.nilGroup], [LockEv.readLock], st⟩
  | _ => ⟨[Resp.actionErr], [], st⟩

/-- `kvengine::flushdb::flushdb` (`kvengine/flushdb.rs`): with exactly 0
arguments, take the write lock, `clear()` the map, and reply `R_OKAY`.
Any other arity replies `R_ACTION_ERR` before touching the table. -/
def flushdb (st : Coretable) (act : List Bytes) : HandlerOut :=
  match act with
  | [] => ⟨[Resp.okay], [LockEv.writeLock], { st with coremap := [] }⟩
  | _ => ⟨[Resp.actionErr], [], st⟩

/-- `kvengine::dbsize::dbsize` (`kvengine/dbsize.rs`): with exactly 0
arguments, take the read lock to read `len`, then write `GroupBegin(1)`
and the length. Any other arity replies `R_ACTION_ERR` before touching the
table. -/
def dbsize (st : Coretable) (act : List Bytes) : HandlerOut :=
  match act with
  | [] => ⟨[Resp.groupBegin 1, Resp.int st.coremap.length], [LockEv.readLock], st⟩
  | _ => ⟨[Resp.actionErr], [], st⟩

example :
    (set ⟨[], false⟩ [[97], [49]]).resp = [Resp.okay] := by decide

example :
    (set (set ⟨[], false⟩ [[97], [49]]).table [[97], [50]]).resp
      = [Resp.overwriteErr] := by decide

example :
    (get (set ⟨[], false⟩ [[97], [49]]).table [[97]]).resp
      = [Resp.groupBegin 1, Resp.value [49]] := by decide

/-!
## Disk store (`server/src/diskstore/mod.rs`)

`type DiskStore = (Vec<String>, Vec<Vec<u8>>)` is serialized with bincode
(default options): every sequence is written as a `u64` little-endian
length followed by its elements; strings are written as their UTF-8 bytes
with such a length prefix; `Vec<u8>` likewise. `bincode::deserialize`
parses a prefix of the input and does not reject trailing bytes.
-/

/-- The serialized form of `DiskStore = (Vec<String>, Vec<Vec<u8>>)`:
a pair of byte-string sequences (keys, values). -/
abbrev DiskStore := List Bytes × List Bytes

/-- Little-endian base-256 digits: `toDigits k n` is the `k`-byte
little-endian encoding of `n % 256^k` (bincode writes `usize` as `u64`,
i.e. `toDigits 8`). -/
def toDigits : Nat → Nat → List Nat
  | 0, _ => []
  | k + 1, n => n % 256 :: toDigits k (n / 256)

/-- Read a little-endian base-256 digit list back as a number. -/
def fromDigits : List Nat → Nat
  | [] => 0
  | d :: ds => d + 256 * fromDigits ds

/-- bincode encoding of one byte string (a `String` or a `Vec<u8>`):
`u64` little-endian length, then the bytes. -/
def serBytes (b : Bytes) : List Nat := toDigits 8 b.length ++ b

/-- bincode encoding of a sequence of byte strings (`Vec<String>` or
`Vec<Vec<u8>>`): `u64` little-endian count, then the encoded elements. -/
def serSeq (xs : List Bytes) : List Nat :=
  toDigits 8 xs.length ++ (xs.map serBytes).flatten

/-- `bincode::serialize` of a `DiskStore` pair. -/
def serDiskStore (ds : DiskStore) : List Nat := serSeq ds.1 ++ serSeq ds.2

/-- `diskstore::flush_data` (`diskstore/mod.rs`): collect the map keys
and the value blobs into a `DiskStore` pair (`keys()` and `values()`
iterate consistently, pairing each key with its value) and write its
bincode serialization; these are the file bytes written. The source
iterates a randomized-order `std` `HashMap`, so the argument here is one
iteration order of the map's entries; theorems that depend on the order
quantify over all permutations of the table. -/
def flush_data (data : CoreMap) : List Nat :=
  serDiskStore (data.map (fun p => p.1), data.map (fun p => p.2.get_blob))

/-- bincode parser for a `u64` little-endian word: consume 8 bytes. -/
def parseU64 (bs : List Nat) : Option (Nat × List Nat) :=
  if 8 ≤ bs.length then some (fromDigits (bs.take 8), bs.drop 8) else none

/-- bincode parser for one byte string: length prefix, then that many
bytes. -/
def parseBytes (bs : List Nat) : Option (Bytes × List Nat) :=
  (parseU64 bs).bind fun p =>
    if p.1 ≤ p.2.length then some (p.2.take p.1, p.2.drop p.1) else none

/-- bincode parser for exactly `n` byte strings. -/
def parseSeqN : Nat → List Nat → Option (List Bytes × List Nat)
  | 0, bs => some ([], bs)
  | n + 1, bs =>
    (parseBytes bs).bind fun p =>
      (parseSeqN n p.2).map fun q => (p.1 :: q.1, q.2)

/-- bincode parser for a sequence of byte strings: count prefix, then the
elements. -/
def parseSeq (bs : List Nat) : Option (List Bytes × List Nat) :=
  (parseU64 bs).bind fun p => parseSeqN p.1 p.2

/-- `bincode::deserialize::<DiskStore>`: parse the two sequences and return
them with the unconsumed rest of the input (trailing bytes are ignored, as
bincode 1.x does). -/
def parseDiskStore (bs : List Nat) : Option (DiskStore × List Nat) :=
  (parseSeq bs).bind fun p =>
    (parseSeq p.2).map fun q => ((p.1, q.1), q.2)

/-- `HashMap::from_iter` over key/value pairs: later bindings for a key
overwrite earlier ones. -/
def tableFromPairs (ps : List (Bytes × Bytes)) : CoreMap :=
  ps.foldl (fun m p => hmInsert m p.1 (Data.from_blob p.2)) []

/-- The outcome of `fs::read` on the persistence file. -/
inductive FileRead where
  /-- `ErrorKind::NotFound` -/
  | notfound : FileRead
  /-- any other I/O error -/
  | readerr : FileRead
  /-- the file exists and holds these bytes -/
  | found : List Nat → FileRead

/-- `diskstore::get_saved` (`diskstore/mod.rs`): `Ok(None)` when the file is
absent; an error for any other read failure or when bincode fails to parse
the `DiskStore` pair; otherwise the `HashMap` built by zipping the key
sequence with the value sequence (`zip` stops at the shorter sequence). -/
def get_saved (f : FileRead) : Except String (Option CoreMap) :=
  match f with
  | FileRead.notfound => Except.ok none
  | FileRead.readerr => Except.error "Couldnt read flushed data from disk"
  | FileRead.found bs =>
    match parseDiskStore bs with
    | none => Except.error "bincode deserialization failed"
    | some (parsed, _rest) =>
      Except.ok (some (tableFromPairs (parsed.1.zip parsed.2)))

/-!
## BGSAVE (`coredb/mod.rs`, `Shared::run_bgsave`)
-/

/-- The outcome of one `run_bgsave` call: whether the task stays active and
the list of files it attempted to write. -/
structure BgsaveOut where
  active : Bool
  attempts : List String
deriving DecidableEq, Repr

/-- `./data.bin` (`diskstore::PERSIST_FILE`). -/
def PERSIST_FILE : String := "./data.bin"

/-- `Shared::run_bgsave` (`coredb/mod.rs`): take the read lock; if
`terminate` is set return `false` without flushing; otherwise attempt one
`flush_data` to `PERSIST_FILE` — the result (`flushOk`) is only logged —
and return `true`. -/
def run_bgsave (st : Coretable) (flushOk : Bool) : BgsaveOut :=
  if st.terminate then ⟨false, []⟩
  else
    -- flush attempted; Ok and Err are both merely logged
    match flushOk with
    | true => ⟨true, [PERSIST_FILE]⟩
    | false => ⟨true, [PERSIST_FILE]⟩

/-!
## Snapshot queue and engine (`server/src/diskstore/snapshot.rs`)
-/

/-- `snapshot::queue::Queue`: a `Vec<String>` of snapshot paths, the
configured bound `maxlen`, and the `dontpop` marker for unbounded mode. -/
structure Queue where
  queue : List String
  maxlen : Nat
  dontpop : Bool
deriving DecidableEq, Repr

/-- `Queue::new((maxlen, dontpop))`. -/
def Queue.new (p : Nat × Bool) : Queue := ⟨[], p.1, p.2⟩

/-- `Queue::is_overflow`: the current length equals `maxlen`. -/
def Queue.is_overflow (q : Queue) : Bool := q.queue.length = q.maxlen

/-- `Queue::pop`: remove and return the item at index 0 (the oldest), if
any. -/
def Queue.pop (q : Queue) : Option String × Queue :=
  match q.queue with
  | [] => (none, q)
  | h :: t => (some h, { q with queue := t })

/-- `Queue::add`: in unbounded (`dontpop`) mode just push; in rotating mode
pop the oldest first exactly when the queue `is_overflow`, then push, and
return the popped item. -/
def Queue.add (q : Queue) (item : String) : Option String × Queue :=
  if q.dontpop then
    (none, { q with queue := q.queue ++ [item] })
  else
    let x := if q.is_overflow then q.pop else (none, q)
    (x.1, { x.2 with queue := x.2.queue ++ [item] })

/-- The snapshot system state: the set of snapshot files on disk (in
creation order), the engine queue, and the database `terminate` flag read
under the lock. -/
structure SnapSys where
  disk : List String
  snaps : Queue
  terminate : Bool
deriving DecidableEq, Repr

/-- `fs::File::create` + `write_all`: create-or-truncate `name` (the disk
retains one file per name). -/
def fsWrite (disk : List String) (name : String) : List String :=
  if name ∈ disk then disk else disk ++ [name]

/-- `fs::remove_file name`. -/
def fsRemove (disk : List String) (name : String) : List String :=
  disk.erase name

/-- `SnapshotEngine::mksnap` (`snapshot.rs`): under the read lock, return
`false` (shut down) if `terminate` is set; otherwise flush to the generated
`snapname` — on a flush error log and return `true` without touching the
queue — then `Queue::add` the name and, if an old snapshot was evicted,
`fs::remove_file` it (errors only logged); return `true`. -/
def mksnap (sys : SnapSys) (snapname : String) (flushOk : Bool) : Bool × SnapSys :=
  if sys.terminate then (false, sys)
  else if flushOk then
    let disk1 := fsWrite sys.disk snapname
    let r := sys.snaps.add snapname
    match r.1 with
    | some oldsnap => (true, { sys with disk := fsRemove disk1 oldsnap, snaps := r.2 })
    | none => (true, { sys with disk := disk1, snaps := r.2 })
  else
    (true, sys)

/-- Run `mksnap` once per generated name, every flush succeeding. -/
def mksnapAll (sys : SnapSys) (names : List String) : SnapSys :=
  names.foldl (fun s n => (mksnap s n true).2) sys

/-- Fold `Queue::add` over a list of items, discarding evictions. -/
def addAll (q : Queue) (items : List String) : Queue :=
  items.foldl (fun q n => (q.add n).2) q

/-!
## The acceptor backoff loop (`server/src/dbnet.rs`, `Listener::accept`)
-/

/-- One attempt of `TcpListener::accept`: `some s` is `Ok((stream, _))`,
`none` is `Err(e)`. -/
abbrev AcceptTry := Option Nat

/-- The result of `Listener::accept` on a finite prefix of attempt
outcomes: `none` if the loop is still running when the outcomes run out,
otherwise `Ok stream` or the propagated error; paired with the list of
backoff delays (in seconds) slept along the way. -/
def acceptFrom (backoff : Nat) : List AcceptTry → Option (Except Unit Nat) × List Nat
  | [] => (none, [])
  | t :: ts =>
    match t with
    | some s => (some (Except.ok s), [])
    | none =>
      if backoff > 64 then (some (Except.error ()), [])
      else
        let r := acceptFrom (backoff * 2) ts
        (r.1, backoff :: r.2)

/-- `Listener::accept`: the backoff starts at 1 second. -/
def accept (tries : List AcceptTry) : Option (Except Unit Nat) × List Nat :=
  acceptFrom 1 tries

/-!
## Map lemmas
-/

theorem hmGet_eq_none_iff (m : CoreMap) (k : Bytes) :
    hmGet m k = none ↔ hmContains m k = false := by
  unfold hmGet hmContains
  cases m.find? fun p => p.1 = k <;> simp

theorem hmContains_of_hmGet_some {m : CoreMap} {k : Bytes} {d : Data}
    (h : hmGet m k = some d) : hmContains m k = true := by
  unfold hmGet at h
  unfold hmContains
  cases hf : m.find? fun p => p.1 = k <;> rw [hf] at h <;> simp_all

theorem find?_replace_self (m : CoreMap) (k : Bytes) (v : Data) :
    ((m.map fun p => if p.1 = k then (p.1, v) else p).find? fun p => p.1 = k)
      = (m.find? fun p => p.1 = k).map fun p => (p.1, v) := by
  induction m with
  | nil => rfl
  | cons a m ih =>
    by_cases h : a.1 = k
    · simp [h]
    · simp only [List.map_cons, if_neg h]
      rw [List.find?_cons_of_neg _ (by simpa using h),
        List.find?_cons_of_neg _ (by simpa using h), ih]

theorem find?_replace_ne (m : CoreMap) (k : Bytes) (v : Data) (kp : Bytes)
    (hne : kp ≠ k) :
    ((m.map fun p => if p.1 = k then (p.1, v) else p).find? fun p => p.1 = kp)
      = m.find? fun p => p.1 = kp := by
  induction m with
  | nil => rfl
  | cons a m ih =>
    by_cases h : a.1 = k
    · have hk : ¬a.1 = kp := by
        intro hc
        exact hne (hc ▸ h)
      simp only [List.map_cons, if_pos h]
      rw [List.find?_cons_of_neg _ (by simpa using hk),
        List.find?_cons_of_neg _ (by simpa using hk), ih]
    · by_cases h2 : a.1 = kp
      · simp only [List.map_cons, if_neg h]
        rw [List.find?_cons_of_pos _ (by simpa using h2),
          List.find?_cons_of_pos _ (by simpa using h2)]
      · simp only [List.map_cons, if_neg h]
        rw [List.find?_cons_of_neg _ (by simpa using h2),
          List.find?_cons_of_neg _ (by simpa using h2), ih]

theorem hmGet_hmInsert_self (m : CoreMap) (k : Bytes) (v : Data) :
    hmGet (hmInsert m k v) k = some v := by
  unfold hmInsert
  by_cases h : hmContains m k
  · rw [if_pos h]
    unfold hmContains at h
    unfold hmGet
    rw [find?_replace_self]
    cases hf : m.find? fun p => p.1 = k <;> rw [hf] at h <;> simp_all
  · rw [if_neg h]
    unfold hmContains at h
    unfold hmGet
    rw [List.find?_append]
    cases hf : m.find? fun p => p.1 = k <;> rw [hf] at h <;> simp_all

theorem hmGet_hmInsert_ne (m : CoreMap) (k : Bytes) (v : Data) (kp : Bytes)
    (hne : kp ≠ k) :
    hmGet (hmInsert m k v) kp = hmGet m kp := by
  unfold hmInsert
  by_cases h : hmContains m k
  · rw [if_pos h]
    unfold hmGet
    rw [find?_replace_ne m k v kp hne]
  · rw [if_neg h]
    unfold hmGet
    rw [List.find?_append]
    cases hf : m.find? fun p => p.1 = kp
    · simp [hf, Ne.symm hne]
    · simp [hf]

/-!
## Claims about the command handlers
-/

/-- C1: SET is strictly create-only. With exactly 2 arguments, on an absent
key it inserts the binding and replies OK; on a present key it replies
OVERWRITE_ERR, leaves the table unchanged, and a subsequent GET still
returns the original value; SET never overwrites an existing binding. -/
theorem c1_set_create_only (st : Coretable) (k v : Bytes) :
    (hmGet st.coremap k = none →
      (set st [k, v]).resp = [Resp.okay] ∧
        hmGet (set st [k, v]).table.coremap k = some (Data.from_string v)) ∧
    (∀ d, hmGet st.coremap k = some d →
      (set st [k, v]).resp = [Resp.overwriteErr] ∧
        (set st [k, v]).table = st ∧
        (get (set st [k, v]).table [k]).resp
          = [Resp.groupBegin 1, Resp.value d.get_blob]) ∧
    (∀ kp dp, hmGet st.coremap kp = some dp →
      hmGet (set st [k, v]).table.coremap kp = some dp) := by
  refine ⟨?_, ?_, ?_⟩
  · intro habs
    have hc : hmContains st.coremap k = false := (hmGet_eq_none_iff _ _).mp habs
    simp [set, hc, hmGet_hmInsert_self]
  · intro d hd
    have hc : hmContains st.coremap k = true := hmContains_of_hmGet_some hd
    simp [set, hc, get, hd]
  · intro kp dp hdp
    by_cases hck : hmContains st.coremap k = true
    · simp [set, hck, hdp]
    · simp only [Bool.not_eq_true] at hck
      by_cases hkk : kp = k
      · subst hkk
        rw [(hmGet_eq_none_iff _ _).mpr hck] at hdp
        exact absurd hdp (by simp)
      · simp [set, hck, hmGet_hmInsert_ne _ _ _ _ hkk, hdp]

/-- C1 witness: on the empty table, SET "a" "1" inserts and replies OK; on
the resulting table a second SET "a" "2" replies OVERWRITE_ERR and GET "a"
still returns "1". -/
theorem c1_set_create_only_witness :
    ((set ⟨[], false⟩ [[97], [49]]).resp = [Resp.okay] ∧
      hmGet (set ⟨[], false⟩ [[97], [49]]).table.coremap [97]
        = some (Data.from_string [49])) ∧
    ((set (set ⟨[], false⟩ [[97], [49]]).table [[97], [50]]).resp
        = [Resp.overwriteErr] ∧
      (set (set ⟨[], false⟩ [[97], [49]]).table [[97], [50]]).table
        = (set ⟨[], false⟩ [[97], [49]]).table ∧
      (get (set (set ⟨[], false⟩ [[97], [49]]).table [[97], [50]]).table
          [[97]]).resp = [Resp.groupBegin 1, Resp.value [49]]) :=
  ⟨(c1_set_create_only ⟨[], false⟩ [97] [49]).1 (by decide),
    (c1_set_create_only (set ⟨[], false⟩ [[97], [49]]).table [97] [50]).2.1
      (Data.from_string [49]) (by decide)⟩

/-- C2: UPDATE is strictly replace-only. With exactly 2 arguments, on an
absent key it replies NIL and leaves the table unchanged (never inserting a
new key); on a present key it replaces the stored value and replies OK. -/
theorem c2_update_replace_only (st : Coretable) (k v : Bytes) :
    (hmGet st.coremap k = none →
      (update st [k, v]).resp = [Resp.nil] ∧ (update st [k, v]).table = st) ∧
    (hmContains st.coremap k = true →
      (update st [k, v]).resp = [Resp.okay] ∧
        hmGet (update st [k, v]).table.coremap k = some (Data.from_string v)) := by
  refine ⟨?_, ?_⟩
  · intro habs
    have hc : hmContains st.coremap k = false := (hmGet_eq_none_iff _ _).mp habs
    simp [update, hc]
  · intro hc
    simp [update, hc, hmGet_hmInsert_self]

/-- C2 witness: on the empty table UPDATE "k" "v" replies NIL and changes
nothing; after SET "k" "v", UPDATE "k" "w" replies OK and GET returns
"w". -/
theorem c2_update_replace_only_witness :
    ((update ⟨[], false⟩ [[107], [118]]).resp = [Resp.nil] ∧
      (update ⟨[], false⟩ [[107], [118]]).table = ⟨[], false⟩) ∧
    ((update (set ⟨[], false⟩ [[107], [118]]).table [[107], [119]]).resp
        = [Resp.okay] ∧
      hmGet (update (set ⟨[], false⟩ [[107], [118]]).table
          [[107], [119]]).table.coremap [107] = some (Data.from_string [119])) :=
  ⟨(c2_update_replace_only ⟨[], false⟩ [107] [118]).1 (by decide),
    (c2_update_replace_only (set ⟨[], false⟩ [[107], [118]]).table [107] [119]).2
      (by decide)⟩

/-- C9: wrong arity is rejected without touching the table: every handler
invoked with an argument count other than its arity writes ACTION_ERR,
acquires no table lock, and leaves the table unchanged. -/
theorem c9_wrong_arity (st : Coretable) (act : List Bytes) :
    (act.length ≠ 1 → get st act = ⟨[Resp.actionErr], [], st⟩) ∧
    (act.length ≠ 2 → set st act = ⟨[Resp.actionErr], [], st⟩) ∧
    (act.length ≠ 2 → update st act = ⟨[Resp.actionErr], [], st⟩) ∧
    (act.length ≠ 0 → flushdb st act = ⟨[Resp.actionErr], [], st⟩) ∧
    (act.length ≠ 0 → dbsize st act = ⟨[Resp.actionErr], [], st⟩) := by
  rcases act with _ | ⟨a, _ | ⟨b, t⟩⟩
  · refine ⟨fun h => rfl, fun h => rfl, fun h => rfl, ?_, ?_⟩ <;>
      (intro h; exact absurd rfl h)
  · refine ⟨?_, fun h => rfl, fun h => rfl, fun h => rfl, fun h => rfl⟩
    intro h
    exact absurd rfl h
  · cases t with
    | nil =>
      refine ⟨fun h => rfl, ?_, ?_, fun h => rfl, fun h => rfl⟩ <;>
        (intro h; exact absurd rfl h)
    | cons c t =>
      exact ⟨fun h => rfl, fun h => rfl, fun h => rfl, fun h => rfl, fun h => rfl⟩

/-- C9 witness: GET with zero arguments, SET with one argument and DBSIZE
with one argument all reply ACTION_ERR, take no lock, and leave the table
unchanged. -/
theorem c9_wrong_arity_witness :
    get ⟨[([107], ⟨[118]⟩)], false⟩ [] =
      ⟨[Resp.actionErr], [], ⟨[([107], ⟨[118]⟩)], false⟩⟩ ∧
    set ⟨[([107], ⟨[118]⟩)], false⟩ [[97]] =
      ⟨[Resp.actionErr], [], ⟨[([107], ⟨[118]⟩)], false⟩⟩ ∧
    dbsize ⟨[([107], ⟨[118]⟩)], false⟩ [[97]] =
      ⟨[Resp.actionErr], [], ⟨[([107], ⟨[118]⟩)], false⟩⟩ :=
  ⟨(c9_wrong_arity ⟨[([107], ⟨[118]⟩)], false⟩ []).1 (by decide),
    (c9_wrong_arity ⟨[([107], ⟨[118]⟩)], false⟩ [[97]]).2.1 (by decide),
    (c9_wrong_arity ⟨[([107], ⟨[118]⟩)], false⟩ [[97]]).2.2.2.2 (by decide)⟩

/-- C10: frame condition. SET and UPDATE modify at most the binding of
their key (every other key reads the same before and after, whether the
command succeeds or fails); no handler ever changes the `terminate` flag;
GET and DBSIZE leave the whole table untouched; FLUSHDB empties the map
and leaves `terminate` as it was. -/
theorem c10_frame (st : Coretable) (k v : Bytes) (act : List Bytes) :
    (∀ kp, kp ≠ k →
      hmGet (set st [k, v]).table.coremap kp = hmGet st.coremap kp) ∧
    (∀ kp, kp ≠ k →
      hmGet (update st [k, v]).table.coremap kp = hmGet st.coremap kp) ∧
    (set st act).table.terminate = st.terminate ∧
    (update st act).table.terminate = st.terminate ∧
    (get st act).table = st ∧
    (dbsize st act).table = st ∧
    (flushdb st act).table.terminate = st.terminate ∧
    (flushdb st []).table.coremap = [] := by
  refine ⟨?_, ?_, ?_, ?_, ?_, ?_, ?_, rfl⟩
  · intro kp hne
    by_cases hc : hmContains st.coremap k = true
    · simp [set, hc]
    · simp only [Bool.not_eq_true] at hc
      simp [set, hc, hmGet_hmInsert_ne _ _ _ _ hne]
  · intro kp hne
    by_cases hc : hmContains st.coremap k = true
    · simp [update, hc, hmGet_hmInsert_ne _ _ _ _ hne]
    · simp only [Bool.not_eq_true] at hc
      simp [update, hc]
  · rcases act with _ | ⟨a, _ | ⟨b, _ | ⟨c, t⟩⟩⟩ <;>
      first
        | rfl
        | (simp only [set]; split <;> rfl)
  · rcases act with _ | ⟨a, _ | ⟨b, _ | ⟨c, t⟩⟩⟩ <;>
      first
        | rfl
        | (simp only [update]; split <;> rfl)
  · rcases act with _ | ⟨a, _ | ⟨b, t⟩⟩ <;>
      first
        | rfl
        | (simp only [get]; split <;> rfl)
  · rcases act with _ | ⟨a, t⟩ <;> rfl
  · rcases act with _ | ⟨a, t⟩ <;> rfl

/-- C10 witness: with table {"k" ↦ "v"}, SET "a" "1" leaves the binding of
"k" unchanged, and FLUSHDB empties the map while preserving `terminate`. -/
theorem c10_frame_witness :
    hmGet (set ⟨[([107], ⟨[118]⟩)], false⟩ [[97], [49]]).table.coremap [107]
        = hmGet (⟨[([107], ⟨[118]⟩)], false⟩ : Coretable).coremap [107] ∧
    (flushdb ⟨[([107], ⟨[118]⟩)], false⟩ []).table.coremap = [] :=
  ⟨(c10_frame ⟨[([107], ⟨[118]⟩)], false⟩ [97] [49] []).1 [107] (by decide),
    (c10_frame ⟨[([107], ⟨[118]⟩)], false⟩ [97] [49] []).2.2.2.2.2.2.2⟩

/-!
## Claims about the snapshot queue, persistence tasks, and acceptor
-/

/-- C6: snapshot queue discipline. In rotating mode with bound `M ≥ 1` and
`len ≤ M`, `add` removes and returns the head (the oldest element) exactly
when the length equals `M` before the push, then pushes; the length never
exceeds `M`. In unbounded (`dontpop`) mode `add` merely pushes and never
evicts. -/
theorem c6_queue_discipline (q : Queue) (item : String) :
    (q.dontpop = false → 1 ≤ q.maxlen → q.queue.length ≤ q.maxlen →
      (q.queue.length = q.maxlen →
        (q.add item).1 = q.queue.head? ∧ (q.add item).1.isSome = true ∧
          (q.add item).2.queue = q.queue.tail ++ [item]) ∧
      (q.queue.length ≠ q.maxlen →
        (q.add item).1 = none ∧ (q.add item).2.queue = q.queue ++ [item]) ∧
      (q.add item).2.queue.length ≤ q.maxlen) ∧
    (q.dontpop = true →
      (q.add item).1 = none ∧ (q.add item).2.queue = q.queue ++ [item]) := by
  obtain ⟨qs, M, dp⟩ := q
  constructor
  · rintro rfl hM hlen
    simp only at hlen hM ⊢
    by_cases hfull : qs.length = M
    · cases qs with
      | nil =>
        simp at hfull
        omega
      | cons h t =>
        have ht : t.length + 1 = M := by simpa using hfull
        refine ⟨fun _ => ?_, fun hne => absurd hfull hne, ?_⟩
        · simp [Queue.add, Queue.is_overflow, Queue.pop, ht]
        · have ha : ((⟨h :: t, M, false⟩ : Queue).add item).2.queue
              = t ++ [item] := by
            simp [Queue.add, Queue.is_overflow, Queue.pop, ht]
          rw [ha]
          simp
          omega
    · refine ⟨fun hc => absurd hc hfull, fun _ => ?_, ?_⟩
      · simp [Queue.add, Queue.is_overflow, hfull]
      · have ha : ((⟨qs, M, false⟩ : Queue).add item).2.queue
            = qs ++ [item] := by
          simp [Queue.add, Queue.is_overflow, hfull]
        rw [ha]
        simp
        omega
  · rintro rfl
    simp [Queue.add]

/-- C6 witness: a full rotating queue of bound 2 evicts its head on `add`;
an unbounded queue never evicts. -/
theorem c6_queue_discipline_witness :
    ((⟨["s1", "s2"], 2, false⟩ : Queue).add "s3").1 = some "s1" ∧
    ((⟨["s1", "s2"], 2, false⟩ : Queue).add "s3").2.queue = ["s2", "s3"] ∧
    ((⟨["s1", "s2"], 2, true⟩ : Queue).add "s3").1 = none := by
  have h := c6_queue_discipline (⟨["s1", "s2"], 2, false⟩ : Queue) "s3"
  have h2 := (h.1 rfl (by decide) (by decide)).1 (by decide)
  have h3 := c6_queue_discipline (⟨["s1", "s2"], 2, true⟩ : Queue) "s3"
  exact ⟨h2.1, h2.2.2, (h3.2 rfl).1⟩

/-- C7: the persistence tasks honour `terminate` and treat write failures
as non-fatal: `run_bgsave` and `mksnap` return `false` (shut down) without
any write attempt exactly when `terminate` is set under the read lock;
when it is unset they return `true` (active) whether the flush succeeds or
fails. -/
theorem c7_persistence_terminate (st : Coretable) (flushOk : Bool)
    (sys : SnapSys) (name : String) (fOk : Bool) :
    ((run_bgsave st flushOk).active = false ↔ st.terminate = true) ∧
    ((run_bgsave st flushOk).attempts = [] ↔ st.terminate = true) ∧
    (st.terminate = false →
      (run_bgsave st flushOk).active = true ∧
        (run_bgsave st flushOk).attempts = [PERSIST_FILE]) ∧
    (sys.terminate = true →
      (mksnap sys name fOk).1 = false ∧ (mksnap sys name fOk).2 = sys) ∧
    (sys.terminate = false → (mksnap sys name fOk).1 = true) := by
  refine ⟨?_, ?_, ?_, ?_, ?_⟩
  · cases hst : st.terminate <;> cases flushOk <;> simp [run_bgsave, hst]
  · cases hst : st.terminate <;> cases flushOk <;> simp [run_bgsave, hst]
  · intro h
    cases flushOk <;> simp [run_bgsave, h]
  · intro h
    simp [mksnap, h]
  · intro h
    cases fOk
    · simp [mksnap, h]
    · simp only [mksnap, h, Bool.false_eq_true, if_false, if_true]
      split <;> simp_all

/-- C7 witness: with `terminate` set both tasks stop without writing; with
it unset both stay active even when the flush fails. -/
theorem c7_persistence_terminate_witness :
    ((run_bgsave ⟨[], true⟩ false).active = false ∧
      (run_bgsave ⟨[], true⟩ false).attempts = []) ∧
    ((run_bgsave ⟨[], false⟩ false).active = true) ∧
    ((mksnap ⟨[], Queue.new (12, false), true⟩ "s" false).1 = false) ∧
    ((mksnap ⟨[], Queue.new (12, false), false⟩ "s" false).1 = true) := by
  have h1 := c7_persistence_terminate ⟨[], true⟩ false
    ⟨[], Queue.new (12, false), true⟩ "s" false
  have h2 := c7_persistence_terminate ⟨[], false⟩ false
    ⟨[], Queue.new (12, false), false⟩ "s" false
  exact ⟨⟨h1.1.mpr rfl, h1.2.1.mpr rfl⟩, (h2.2.2.1 rfl).1,
    (h1.2.2.2.1 rfl).1, h2.2.2.2.2 rfl⟩

/-- C8: accept backoff schedule. After `n ≤ 7` consecutive accept failures
followed by a success, `accept` returns the new connection having slept the
delays 1, 2, …, 2^(n-1) seconds; on the 8th consecutive failure (when the
next delay would exceed 64 s) it propagates the error, having slept
1, 2, 4, 8, 16, 32, 64. -/
theorem c8_accept_backoff (n : Nat) (s : Nat) (rs : List AcceptTry) :
    (n ≤ 7 →
      accept (List.replicate n none ++ some s :: rs)
        = (some (Except.ok s), (List.range n).map fun i => 2 ^ i)) ∧
    accept (List.replicate 8 none ++ rs)
      = (some (Except.error ()), [1, 2, 4, 8, 16, 32, 64]) := by
  constructor
  · intro h
    interval_cases n <;>
      simp [accept, acceptFrom, List.replicate, List.range_succ]
  · simp [accept, acceptFrom, List.replicate]

/-- `Queue.add` on a full rotating queue: pop the head, push the item. -/
theorem add_eq_of_full (h : String) (t : List String) (M : Nat)
    (hfull : (h :: t).length = M) (item : String) :
    (Queue.mk (h :: t) M false).add item = (some h, ⟨t ++ [item], M, false⟩) := by
  simp [Queue.add, Queue.is_overflow, Queue.pop, hfull]

/-- `Queue.add` on a non-full rotating queue: just push. -/
theorem add_eq_of_not_full (qs : List String) (M : Nat)
    (hfull : qs.length ≠ M) (item : String) :
    (Queue.mk qs M false).add item = (none, ⟨qs ++ [item], M, false⟩) := by
  simp [Queue.add, Queue.is_overflow, hfull]

/-- Folding `Queue.add` over a rotating queue keeps the last
`maxlen` elements of the combined sequence. -/
theorem addAll_rotating (ns : List String) :
    ∀ (qs : List String) (M : Nat), 1 ≤ M → qs.length ≤ M →
      addAll ⟨qs, M, false⟩ ns
        = ⟨(qs ++ ns).drop (qs.length + ns.length - M), M, false⟩ := by
  induction ns with
  | nil =>
    intro qs M hM hlen
    simp [addAll, Nat.sub_eq_zero_of_le hlen]
  | cons n ns ih =>
    intro qs M hM hlen
    by_cases hfull : qs.length = M
    · cases qs with
      | nil =>
        simp at hfull
        omega
      | cons h t =>
        have hstep : addAll ⟨h :: t, M, false⟩ (n :: ns)
            = addAll ⟨t ++ [n], M, false⟩ ns := by
          simp only [addAll, List.foldl_cons]
          rw [add_eq_of_full h t M hfull n]
        rw [hstep, ih (t ++ [n]) M hM (by simp at hfull ⊢; omega)]
        have h1 : (t ++ [n]).length + ns.length - M = ns.length := by
          simp at hfull ⊢
          omega
        have h2 : (h :: t).length + (n :: ns).length - M = ns.length + 1 := by
          simp at hfull ⊢
          omega
        rw [h1, h2]
        simp [List.append_assoc]
    · have hstep : addAll ⟨qs, M, false⟩ (n :: ns)
          = addAll ⟨qs ++ [n], M, false⟩ ns := by
        simp only [addAll, List.foldl_cons]
        rw [add_eq_of_not_full qs M hfull n]
      rw [hstep, ih (qs ++ [n]) M hM (by simp; omega)]
      have h1 : (qs ++ [n]).length + ns.length - M
          = qs.length + (n :: ns).length - M := by
        simp
        omega
      rw [h1]
      simp [List.append_assoc]

/-- Along a run of successful `mksnap` calls on fresh names, the disk
content equals the queue content, and the queue evolves by `addAll`. -/
theorem mksnapAll_disk_eq_queue (ns : List String) :
    ∀ (disk : List String) (qs : List String) (M : Nat), 1 ≤ M →
      qs.length ≤ M → disk = qs → ns.Nodup → (∀ n ∈ ns, n ∉ disk) →
      mksnapAll ⟨disk, ⟨qs, M, false⟩, false⟩ ns
        = ⟨(addAll ⟨qs, M, false⟩ ns).queue, addAll ⟨qs, M, false⟩ ns, false⟩ := by
  induction ns with
  | nil =>
    intro disk qs M hM hlen hdq hnd hfresh
    simp [mksnapAll, addAll, hdq]
  | cons n ns ih =>
    intro disk qs M hM hlen hdq hnd hfresh
    have hnotin : n ∉ disk := hfresh n (by simp)
    have hw : fsWrite disk n = disk ++ [n] := by simp [fsWrite, hnotin]
    by_cases hfull : qs.length = M
    · cases qs with
      | nil =>
        simp at hfull
        omega
      | cons h t =>
        have hstep : (mksnap ⟨disk, ⟨h :: t, M, false⟩, false⟩ n true).2
            = ⟨t ++ [n], ⟨t ++ [n], M, false⟩, false⟩ := by
          simp only [mksnap, if_true, Bool.false_eq_true, if_false]
          rw [add_eq_of_full h t M hfull n]
          simp only [hdq] at hw
          simp only [hdq, hw]
          simp [fsRemove, List.erase_cons_head]
        have hq : mksnapAll ⟨disk, ⟨h :: t, M, false⟩, false⟩ (n :: ns)
            = mksnapAll ⟨t ++ [n], ⟨t ++ [n], M, false⟩, false⟩ ns := by
          simp only [mksnapAll, List.foldl_cons]
          rw [hstep]
        have hlen2 : (t ++ [n]).length ≤ M := by
          simp at hfull ⊢
          omega
        have hfresh2 : ∀ m ∈ ns, m ∉ t ++ [n] := by
          intro m hm
          simp only [List.mem_append, List.mem_singleton]
          rintro (hmt | rfl)
          · exact hfresh m (by simp [hm]) (by rw [hdq]; simp [hmt])
          · exact (List.nodup_cons.mp hnd).1 hm
        rw [hq, ih (t ++ [n]) (t ++ [n]) M hM hlen2 rfl
          (List.nodup_cons.mp hnd).2 hfresh2]
        have haq : addAll ⟨h :: t, M, false⟩ (n :: ns)
            = addAll ⟨t ++ [n], M, false⟩ ns := by
          simp only [addAll, List.foldl_cons]
          rw [add_eq_of_full h t M hfull n]
        rw [haq]
    · have hstep : (mksnap ⟨disk, ⟨qs, M, false⟩, false⟩ n true).2
          = ⟨disk ++ [n], ⟨qs ++ [n], M, false⟩, false⟩ := by
        simp only [mksnap, if_true, Bool.false_eq_true, if_false]
        rw [add_eq_of_not_full qs M hfull n]
        simp [hw]
      have hq : mksnapAll ⟨disk, ⟨qs, M, false⟩, false⟩ (n :: ns)
          = mksnapAll ⟨disk ++ [n], ⟨qs ++ [n], M, false⟩, false⟩ ns := by
        simp only [mksnapAll, List.foldl_cons]
        rw [hstep]
      have hfresh2 : ∀ m ∈ ns, m ∉ disk ++ [n] := by
        intro m hm
        simp only [List.mem_append, List.mem_singleton]
        rintro (hmd | rfl)
        · exact hfresh m (by simp [hm]) hmd
        · exact (List.nodup_cons.mp hnd).1 hm
      rw [hq, ih (disk ++ [n]) (qs ++ [n]) M hM (by simp; omega)
        (by rw [hdq]) (List.nodup_cons.mp hnd).2 hfresh2]
      have haq : addAll ⟨qs, M, false⟩ (n :: ns)
          = addAll ⟨qs ++ [n], M, false⟩ ns := by
        simp only [addAll, List.foldl_cons]
        rw [add_eq_of_not_full qs M hfull n]
      rw [haq]

/-- C5: snapshot rotation on disk. In rotating mode with capacity `M`,
starting from an empty snapshots directory, after `N > M` successful
`mksnap` calls with pairwise-distinct generated names exactly `M` snapshot
files remain on disk, they are exactly the names generated by the last `M`
calls (in order), and every file created by the oldest `N − M` calls has
been deleted. -/
theorem c5_snapshot_rotation (M : Nat) (names : List String)
    (hM : M ≠ 0) (hnd : names.Nodup) (hN : M < names.length) :
    (mksnapAll ⟨[], Queue.new (M, false), false⟩ names).disk
        = names.drop (names.length - M) ∧
    (mksnapAll ⟨[], Queue.new (M, false), false⟩ names).disk.length = M ∧
    ∀ n ∈ names.take (names.length - M),
      n ∉ (mksnapAll ⟨[], Queue.new (M, false), false⟩ names).disk := by
  have hM1 : 1 ≤ M := Nat.one_le_iff_ne_zero.mpr hM
  have hrun : mksnapAll ⟨[], Queue.new (M, false), false⟩ names
      = ⟨(addAll ⟨[], M, false⟩ names).queue, addAll ⟨[], M, false⟩ names,
          false⟩ :=
    mksnapAll_disk_eq_queue names [] [] M hM1 (by simp) rfl hnd
      (by intro n hn; simp)
  have hadd : addAll ⟨[], M, false⟩ names
      = ⟨names.drop (names.length - M), M, false⟩ := by
    have := addAll_rotating names [] M hM1 (by simp)
    simpa using this
  have hdisk : (mksnapAll ⟨[], Queue.new (M, false), false⟩ names).disk
      = names.drop (names.length - M) := by
    rw [hrun, hadd]
  refine ⟨hdisk, ?_, ?_⟩
  · rw [hdisk]
    simp
    omega
  · intro n hn
    rw [hdisk]
    have hsplit : names.take (names.length - M) ++ names.drop (names.length - M)
        = names := List.take_append_drop _ _
    have hnd2 : (names.take (names.length - M)
        ++ names.drop (names.length - M)).Nodup := by rw [hsplit]; exact hnd
    exact (List.nodup_append.mp hnd2).2.2 hn

/-- C5 witness: capacity 2, three snapshots s1 s2 s3: files s2 and s3
remain, s1 is gone. -/
theorem c5_snapshot_rotation_witness :
    (mksnapAll ⟨[], Queue.new (2, false), false⟩ ["s1", "s2", "s3"]).disk
        = ["s2", "s3"] ∧
    (mksnapAll ⟨[], Queue.new (2, false), false⟩ ["s1", "s2", "s3"]).disk.length
        = 2 ∧
    "s1" ∉ (mksnapAll ⟨[], Queue.new (2, false), false⟩ ["s1", "s2", "s3"]).disk := by
  have h := c5_snapshot_rotation 2 ["s1", "s2", "s3"] (by decide)
    (by decide) (by decide)
  exact ⟨h.1, h.2.1, h.2.2 "s1" (by decide)⟩

/-- C8 witness: two failures then a success yields the connection with
delays [1, 2]; eight straight failures yield the error with delays
[1, 2, 4, 8, 16, 32, 64]. -/
theorem c8_accept_backoff_witness :
    accept [none, none, some 5]
      = (some (Except.ok 5), [1, 2]) ∧
    accept (List.replicate 8 none)
      = (some (Except.error ()), [1, 2, 4, 8, 16, 32, 64]) := by
  have h := c8_accept_backoff 2 5 []
  exact ⟨by simpa using h.1 (by decide), by simpa using h.2⟩

/-!
## Serialization lemmas
-/

theorem toDigits_length (k : Nat) : ∀ n, (toDigits k n).length = k := by
  induction k with
  | zero => intro n; rfl
  | succ k ih => intro n; simp [toDigits, ih]

theorem toDigits_lt (k : Nat) : ∀ n, ∀ d ∈ toDigits k n, d < 256 := by
  induction k with
  | zero => intro n d hd; simp [toDigits] at hd
  | succ k ih =>
    intro n d hd
    simp only [toDigits, List.mem_cons] at hd
    rcases hd with rfl | hd
    · exact Nat.mod_lt _ (by omega)
    · exact ih _ d hd

theorem fromDigits_toDigits (k : Nat) : ∀ n, fromDigits (toDigits k n) = n % 256 ^ k := by
  induction k with
  | zero => intro n; simp [toDigits, fromDigits, Nat.mod_one]
  | succ k ih =>
    intro n
    have hpow : (256 : Nat) ^ (k + 1) = 256 * 256 ^ k := by
      rw [Nat.pow_succ, Nat.mul_comm]
    rw [hpow, Nat.mod_mul]
    simp [toDigits, fromDigits, ih]

theorem fromDigits_lt (ds : List Nat) (h : ∀ d ∈ ds, d < 256) :
    fromDigits ds < 256 ^ ds.length := by
  induction ds with
  | nil => simp [fromDigits]
  | cons d ds ih =>
    have hd : d < 256 := h d (by simp)
    have hds : fromDigits ds < 256 ^ ds.length := ih fun x hx => h x (by simp [hx])
    simp only [fromDigits, List.length_cons]
    have hpow : (256 : Nat) ^ (ds.length + 1) = 256 * 256 ^ ds.length := by
      rw [Nat.pow_succ, Nat.mul_comm]
    rw [hpow]
    calc d + 256 * fromDigits ds
        < 256 + 256 * fromDigits ds := by omega
      _ = 256 * (fromDigits ds + 1) := by ring
      _ ≤ 256 * 256 ^ ds.length := by
          exact Nat.mul_le_mul_left _ (by omega)

theorem toDigits_fromDigits (ds : List Nat) (h : ∀ d ∈ ds, d < 256) :
    toDigits ds.length (fromDigits ds) = ds := by
  induction ds with
  | nil => rfl
  | cons d ds ih =>
    have hd : d < 256 := h d (by simp)
    simp only [fromDigits, List.length_cons, toDigits]
    have h1 : (d + 256 * fromDigits ds) % 256 = d := by
      rw [Nat.add_mul_mod_self_left, Nat.mod_eq_of_lt hd]
    have h2 : (d + 256 * fromDigits ds) / 256 = fromDigits ds := by
      rw [Nat.add_mul_div_left _ _ (by omega : (0:Nat) < 256),
        Nat.div_eq_of_lt hd]
      omega
    rw [h1, h2, ih fun x hx => h x (by simp [hx])]

theorem parseU64_ser (n : Nat) (rest : List Nat) (h : n < 2 ^ 64) :
    parseU64 (toDigits 8 n ++ rest) = some (n, rest) := by
  have hlen : (toDigits 8 n).length = 8 := toDigits_length 8 n
  have h8 : 8 ≤ (toDigits 8 n ++ rest).length := by simp [hlen]
  have hmod : n % 256 ^ 8 = n := Nat.mod_eq_of_lt (by norm_num at h ⊢; omega)
  simp only [parseU64, if_pos h8, List.take_left' hlen, List.drop_left' hlen,
    fromDigits_toDigits, hmod]

theorem parseU64_inv (bs : List Nat) (n : Nat) (rest : List Nat)
    (hp : parseU64 bs = some (n, rest)) (hb : ∀ b ∈ bs, b < 256) :
    bs = toDigits 8 n ++ rest ∧ n < 2 ^ 64 := by
  unfold parseU64 at hp
  by_cases h8 : 8 ≤ bs.length
  · rw [if_pos h8] at hp
    simp only [Option.some.injEq, Prod.mk.injEq] at hp
    obtain ⟨hn, hr⟩ := hp
    have htlen : (bs.take 8).length = 8 := by
      rw [List.length_take]
      omega
    have htb : ∀ d ∈ bs.take 8, d < 256 :=
      fun d hd => hb d (List.take_subset 8 bs hd)
    have hts := toDigits_fromDigits (bs.take 8) htb
    rw [htlen, hn] at hts
    constructor
    · rw [hts, ← hr, List.take_append_drop]
    · have hfl := fromDigits_lt (bs.take 8) htb
      rw [htlen, hn] at hfl
      norm_num at hfl ⊢
      omega
  · rw [if_neg h8] at hp
    exact absurd hp (by simp)

theorem parseBytes_ser (b : Bytes) (rest : List Nat) (h : b.length < 2 ^ 64) :
    parseBytes (serBytes b ++ rest) = some (b, rest) := by
  have hassoc : serBytes b ++ rest = toDigits 8 b.length ++ (b ++ rest) := by
    simp [serBytes, List.append_assoc]
  have hle : b.length ≤ (b ++ rest).length := by simp
  rw [hassoc]
  simp only [parseBytes, parseU64_ser _ _ h, Option.some_bind, if_pos hle,
    List.take_left, List.drop_left]

theorem parseBytes_inv (bs : List Nat) (b : Bytes) (rest : List Nat)
    (hp : parseBytes bs = some (b, rest)) (hb : ∀ x ∈ bs, x < 256) :
    bs = serBytes b ++ rest := by
  unfold parseBytes at hp
  cases hu : parseU64 bs with
  | none => rw [hu] at hp; exact absurd hp (by simp)
  | some p =>
    obtain ⟨n, r1⟩ := p
    rw [hu] at hp
    simp only [Option.some_bind] at hp
    by_cases hle : n ≤ r1.length
    · rw [if_pos hle] at hp
      simp only [Option.some.injEq, Prod.mk.injEq] at hp
      obtain ⟨hbb, hr⟩ := hp
      obtain ⟨hbs, _⟩ := parseU64_inv bs n r1 hu hb
      have hblen : b.length = n := by
        rw [← hbb, List.length_take]
        omega
      have hbr : b ++ rest = r1 := by
        rw [← hbb, ← hr, List.take_append_drop]
      rw [hbs, ← hbr, serBytes, hblen, List.append_assoc]
    · rw [if_neg hle] at hp
      exact absurd hp (by simp)

theorem parseSeqN_ser (xs : List Bytes) (rest : List Nat)
    (h : ∀ x ∈ xs, x.length < 2 ^ 64) :
    parseSeqN xs.length ((xs.map serBytes).flatten ++ rest) = some (xs, rest) := by
  induction xs with
  | nil => simp [parseSeqN]
  | cons x xs ih =>
    have hx : x.length < 2 ^ 64 := h x (by simp)
    have hassoc : ((x :: xs).map serBytes).flatten ++ rest
        = serBytes x ++ ((xs.map serBytes).flatten ++ rest) := by
      simp [List.append_assoc]
    rw [hassoc]
    simp only [List.length_cons, parseSeqN, parseBytes_ser x _ hx,
      Option.some_bind, ih fun y hy => h y (by simp [hy]), Option.map_some']

theorem parseSeqN_inv (n : Nat) : ∀ (bs : List Nat) (xs : List Bytes)
    (rest : List Nat), parseSeqN n bs = some (xs, rest) →
    (∀ x ∈ bs, x < 256) →
    bs = (xs.map serBytes).flatten ++ rest ∧ xs.length = n := by
  induction n with
  | zero =>
    intro bs xs rest hp hb
    simp only [parseSeqN, Option.some.injEq, Prod.mk.injEq] at hp
    obtain ⟨hx, hr⟩ := hp
    simp [← hx, ← hr]
  | succ n ih =>
    intro bs xs rest hp hb
    simp only [parseSeqN] at hp
    cases hu : parseBytes bs with
    | none => rw [hu] at hp; exact absurd hp (by simp)
    | some p =>
      obtain ⟨b, r1⟩ := p
      rw [hu] at hp
      simp only [Option.some_bind] at hp
      cases hs : parseSeqN n r1 with
      | none => rw [hs] at hp; exact absurd hp (by simp)
      | some q =>
        obtain ⟨xs1, r2⟩ := q
        rw [hs] at hp
        simp only [Option.map_some', Option.some.injEq, Prod.mk.injEq] at hp
        obtain ⟨hxs, hr⟩ := hp
        have hbs : bs = serBytes b ++ r1 := parseBytes_inv bs b r1 hu hb
        have hb1 : ∀ x ∈ r1, x < 256 := by
          intro x hx
          exact hb x (by rw [hbs]; simp [hx])
        obtain ⟨hr1, hlen⟩ := ih r1 xs1 r2 hs hb1
        subst hr
        constructor
        · rw [hbs, hr1, ← hxs]
          simp [List.append_assoc]
        · rw [← hxs]
          simp [hlen]

theorem parseSeq_ser (xs : List Bytes) (rest : List Nat)
    (hlen : xs.length < 2 ^ 64) (h : ∀ x ∈ xs, x.length < 2 ^ 64) :
    parseSeq (serSeq xs ++ rest) = some (xs, rest) := by
  have hassoc : serSeq xs ++ rest
      = toDigits 8 xs.length ++ ((xs.map serBytes).flatten ++ rest) := by
    simp [serSeq, List.append_assoc]
  rw [hassoc]
  simp only [parseSeq, parseU64_ser _ _ hlen, Option.some_bind,
    parseSeqN_ser xs rest h]

theorem parseSeq_inv (bs : List Nat) (xs : List Bytes) (rest : List Nat)
    (hp : parseSeq bs = some (xs, rest)) (hb : ∀ x ∈ bs, x < 256) :
    bs = serSeq xs ++ rest := by
  unfold parseSeq at hp
  cases hu : parseU64 bs with
  | none => rw [hu] at hp; exact absurd hp (by simp)
  | some p =>
    obtain ⟨n, r1⟩ := p
    rw [hu] at hp
    simp only [Option.some_bind] at hp
    obtain ⟨hbs, _⟩ := parseU64_inv bs n r1 hu hb
    have hb1 : ∀ x ∈ r1, x < 256 := by
      intro x hx
      exact hb x (by rw [hbs]; simp [hx])
    obtain ⟨hr1, hlen⟩ := parseSeqN_inv n r1 xs rest hp hb1
    rw [hbs, hr1, serSeq, ← hlen, List.append_assoc]

theorem parseDiskStore_ser (ks vs : List Bytes)
    (hk : ks.length < 2 ^ 64) (hv : vs.length < 2 ^ 64)
    (hke : ∀ x ∈ ks, x.length < 2 ^ 64) (hve : ∀ x ∈ vs, x.length < 2 ^ 64) :
    parseDiskStore (serDiskStore (ks, vs)) = some ((ks, vs), []) := by
  have h1 : serDiskStore (ks, vs) = serSeq ks ++ (serSeq vs ++ []) := by
    simp [serDiskStore]
  rw [h1]
  simp only [parseDiskStore, parseSeq_ser ks _ hk hke, Option.some_bind,
    parseSeq_ser vs [] hv hve, Option.map_some']

theorem parseDiskStore_inv (bs : List Nat) (ks vs : List Bytes)
    (rest : List Nat) (hp : parseDiskStore bs = some ((ks, vs), rest))
    (hb : ∀ x ∈ bs, x < 256) :
    bs = serDiskStore (ks, vs) ++ rest := by
  unfold parseDiskStore at hp
  cases hu : parseSeq bs with
  | none => rw [hu] at hp; exact absurd hp (by simp)
  | some p =>
    obtain ⟨ks1, r1⟩ := p
    rw [hu] at hp
    simp only [Option.some_bind] at hp
    cases hs : parseSeq r1 with
    | none => rw [hs] at hp; exact absurd hp (by simp)
    | some q =>
      obtain ⟨vs1, r2⟩ := q
      rw [hs] at hp
      simp only [Option.map_some', Option.some.injEq, Prod.mk.injEq] at hp
      obtain ⟨⟨hks, hvs⟩, hr⟩ := hp
      have hbs : bs = serSeq ks1 ++ r1 := parseSeq_inv bs ks1 r1 hu hb
      have hb1 : ∀ x ∈ r1, x < 256 := by
        intro x hx
        exact hb x (by rw [hbs]; simp [hx])
      have hr1 : r1 = serSeq vs1 ++ r2 := parseSeq_inv r1 vs1 r2 hs hb1
      rw [hbs, hr1, ← hks, ← hvs, ← hr]
      simp [serDiskStore, List.append_assoc]

theorem hmContains_eq_false (m : CoreMap) (k : Bytes)
    (h : ∀ p ∈ m, p.1 ≠ k) : hmContains m k = false := by
  unfold hmContains
  rw [List.find?_eq_none.mpr (by intro p hp; simpa using h p hp)]
  rfl

theorem foldl_hmInsert_fresh (ps : List (Bytes × Bytes)) :
    ∀ (m : CoreMap), (∀ p ∈ ps, ∀ q ∈ m, q.1 ≠ p.1) →
      (ps.map fun p => p.1).Nodup →
      ps.foldl (fun m p => hmInsert m p.1 (Data.from_blob p.2)) m
        = m ++ ps.map fun p => (p.1, Data.from_blob p.2) := by
  induction ps with
  | nil => intro m _ _; simp
  | cons p ps ih =>
    intro m hfresh hnd
    have hc : hmContains m p.1 = false :=
      hmContains_eq_false m p.1 fun q hq => hfresh p (by simp) q hq
    have hins : hmInsert m p.1 (Data.from_blob p.2)
        = m ++ [(p.1, Data.from_blob p.2)] := by
      simp [hmInsert, hc]
    have hnotin : p.1 ∉ ps.map fun r => r.1 :=
      (List.nodup_cons.mp (by simpa using hnd)).1
    have hfresh2 : ∀ r ∈ ps, ∀ q ∈ m ++ [(p.1, Data.from_blob p.2)], q.1 ≠ r.1 := by
      intro r hr q hq
      rcases List.mem_append.mp hq with hqm | hq1
      · exact hfresh r (by simp [hr]) q hqm
      · have hq2 : q = (p.1, Data.from_blob p.2) := by simpa using hq1
        rw [hq2]
        intro heq
        exact hnotin (heq ▸ List.mem_map_of_mem (fun r => r.1) hr)
    simp only [List.foldl_cons, hins]
    rw [ih (m ++ [(p.1, Data.from_blob p.2)]) hfresh2
      (List.nodup_cons.mp (by simpa using hnd)).2]
    simp [List.append_assoc]

theorem tableFromPairs_eq (ps : List (Bytes × Bytes))
    (hnd : (ps.map fun p => p.1).Nodup) :
    tableFromPairs ps = ps.map fun p => (p.1, Data.from_blob p.2) := by
  unfold tableFromPairs
  rw [foldl_hmInsert_fresh ps [] (by intro p _ q hq; simp at hq) hnd]
  simp

theorem hmGet_cons (a : Bytes × Data) (m : CoreMap) (k : Bytes) :
    hmGet (a :: m) k = if a.1 = k then some a.2 else hmGet m k := by
  unfold hmGet
  by_cases h : a.1 = k
  · rw [List.find?_cons_of_pos _ (by simpa using h), if_pos h]
    rfl
  · rw [List.find?_cons_of_neg _ (by simpa using h), if_neg h]

theorem hmGet_eq_none_iff_keys (m : CoreMap) (k : Bytes) :
    hmGet m k = none ↔ k ∉ m.map fun p => p.1 := by
  unfold hmGet
  rw [Option.map_eq_none', List.find?_eq_none]
  simp only [decide_eq_true_eq, List.mem_map, not_exists]
  constructor
  · intro h p hc
    exact h p hc.1 hc.2
  · intro h p hp hpk
    exact h p ⟨hp, hpk⟩

theorem mem_of_hmGet_eq_some {m : CoreMap} {k : Bytes} {v : Data}
    (h : hmGet m k = some v) : (k, v) ∈ m := by
  unfold hmGet at h
  cases hf : m.find? fun p => p.1 = k with
  | none => rw [hf] at h; exact absurd h (by simp)
  | some p =>
    rw [hf] at h
    have hpk : p.1 = k := by simpa using List.find?_some hf
    have hpv : p.2 = v := by simpa using h
    have hpm : p ∈ m := List.mem_of_find?_eq_some hf
    have : (k, v) = p := by
      rw [← hpk, ← hpv]
    rw [this]
    exact hpm

theorem hmGet_eq_some_of_mem (m : CoreMap)
    (hnd : (m.map fun p => p.1).Nodup) (k : Bytes) (v : Data)
    (hmem : (k, v) ∈ m) : hmGet m k = some v := by
  induction m with
  | nil => simp at hmem
  | cons a m ih =>
    simp only [List.map_cons, List.nodup_cons] at hnd
    rcases List.mem_cons.mp hmem with heq | hmem2
    · rw [← heq, hmGet_cons]
      simp
    · by_cases hak : a.1 = k
      · exfalso
        apply hnd.1
        rw [hak]
        exact List.mem_map_of_mem (fun p => p.1) hmem2
      · rw [hmGet_cons, if_neg hak]
        exact ih hnd.2 hmem2

/-- Association-list lookup with distinct keys is invariant under
permutation: two iteration orders of the same `HashMap` read back the same
mapping. -/
theorem hmGet_perm (m₁ m₂ : CoreMap) (hperm : m₁.Perm m₂)
    (hnd : (m₁.map fun p => p.1).Nodup) (k : Bytes) :
    hmGet m₁ k = hmGet m₂ k := by
  have hnd2 : (m₂.map fun p => p.1).Nodup :=
    ((hperm.map fun p => p.1).nodup_iff).mp hnd
  cases h1 : hmGet m₁ k with
  | some v =>
    have hm := mem_of_hmGet_eq_some h1
    exact (hmGet_eq_some_of_mem m₂ hnd2 k v (hperm.mem_iff.mp hm)).symm
  | none =>
    have hk : k ∉ m₁.map fun p => p.1 := (hmGet_eq_none_iff_keys m₁ k).mp h1
    have hk2 : k ∉ m₂.map fun p => p.1 := fun hc =>
      hk (((hperm.map fun p => p.1).mem_iff).mpr hc)
    exact ((hmGet_eq_none_iff_keys m₂ k).mpr hk2).symm

theorem hmInsert_keys (m : CoreMap) (k : Bytes) (v : Data) :
    ((hmInsert m k v).map fun p => p.1)
      = if hmContains m k then m.map fun p => p.1
        else (m.map fun p => p.1) ++ [k] := by
  unfold hmInsert
  by_cases h : hmContains m k
  · rw [if_pos h, if_pos h, List.map_map]
    have hcomp : ((fun p : Bytes × Data => p.1)
        ∘ fun p : Bytes × Data => if p.1 = k then (p.1, v) else p)
          = fun p : Bytes × Data => p.1 := by
      funext p
      by_cases hp : p.1 = k <;> simp [hp]
    rw [hcomp]
  · rw [if_neg h, if_neg h, List.map_append]
    rfl

/-- `HashMap::from_iter` always yields a map with pairwise-distinct keys,
whatever pair list it is fed. -/
theorem foldl_hmInsert_keys_nodup (ps : List (Bytes × Bytes)) :
    ∀ m : CoreMap, (m.map fun p => p.1).Nodup →
      ((ps.foldl (fun m p => hmInsert m p.1 (Data.from_blob p.2)) m).map
        fun p => p.1).Nodup := by
  induction ps with
  | nil => intro m h; simpa using h
  | cons p ps ih =>
    intro m h
    simp only [List.foldl_cons]
    apply ih
    rw [hmInsert_keys]
    by_cases hc : hmContains m p.1
    · rw [if_pos hc]
      exact h
    · rw [if_neg hc]
      have hk : p.1 ∉ m.map fun q => q.1 := by
        rw [← hmGet_eq_none_iff_keys]
        exact (hmGet_eq_none_iff m p.1).mpr (by simpa using hc)
      simp [List.nodup_append, h, hk]

theorem tableFromPairs_keys_nodup (ps : List (Bytes × Bytes)) :
    ((tableFromPairs ps).map fun p => p.1).Nodup :=
  foldl_hmInsert_keys_nodup ps [] (by simp)

/-!
## Claims about the disk encoding
-/

/-- C3 counterexample: the file encoding keys ["a", "b"] with the single
value ["1"] has sequences of different lengths (2 ≠ 1) and parses, yet
`get_saved` succeeds with the one zipped pair instead of failing with a
corrupt-store error. -/
theorem c3_unequal_lengths_counterexample :
    parseDiskStore (serDiskStore ([[97], [98]], [[49]]))
        = some (([[97], [98]], [[49]]), []) ∧
    ([[97], [98]] : List Bytes).length ≠ ([[49]] : List Bytes).length ∧
    get_saved (FileRead.found (serDiskStore ([[97], [98]], [[49]])))
        = Except.ok (some [([97], Data.from_blob [49])]) := by
  refine ⟨by decide, by decide, by rfl⟩

/-- C3 (amended): decoding an existing, bincode-parseable file always
succeeds, even when the key and value sequences have different lengths: the
resulting table is the zip of the two sequences, containing
min(|keys|, |values|) pairs (the excess of the longer sequence is silently
dropped). A corrupt-store error occurs exactly when bincode parsing
fails. -/
theorem c3_decode_zip_truncates (bs : List Nat) :
    (∀ ks vs rest, parseDiskStore bs = some ((ks, vs), rest) →
      get_saved (FileRead.found bs)
          = Except.ok (some (tableFromPairs (ks.zip vs))) ∧
        (ks.zip vs).length = min ks.length vs.length) ∧
    (parseDiskStore bs = none →
      get_saved (FileRead.found bs)
          = Except.error "bincode deserialization failed") := by
  constructor
  · intro ks vs rest hp
    constructor
    · simp [get_saved, hp]
    · simp [List.length_zip]
  · intro hp
    simp [get_saved, hp]

/-- C3 witness: the keys ["a", "b", "c"] with values ["1"] decode to the
single-pair table. -/
theorem c3_decode_zip_truncates_witness :
    get_saved (FileRead.found (serDiskStore ([[97], [98], [99]], [[49]])))
        = Except.ok
            (some (tableFromPairs (([[97], [98], [99]] : List Bytes).zip [[49]]))) ∧
    (([[97], [98], [99]] : List Bytes).zip [[49]]).length
        = min ([[97], [98], [99]] : List Bytes).length ([[49]] : List Bytes).length :=
  (c3_decode_zip_truncates (serDiskStore ([[97], [98], [99]], [[49]]))).1
    [[97], [98], [99]] [[49]] [] (by decide)

/-- C4 counterexample: the file encoding keys ["a", "a"] with the single
value ["1"], followed by one trailing byte, is decoded by `get_saved` into
the table {"a" ↦ "1"}, but encoding that table does not reproduce the file
byte-for-byte. -/
theorem c4_roundtrip_counterexample :
    get_saved (FileRead.found (serDiskStore ([[97], [97]], [[49]]) ++ [0]))
        = Except.ok (some [([97], Data.from_blob [49])]) ∧
    flush_data [([97], Data.from_blob [49])]
        ≠ serDiskStore ([[97], [97]], [[49]]) ++ [0] := by
  refine ⟨by rfl, by decide⟩

/-- Decoding the bytes written by `flush_data` over any entry list with
pairwise-distinct keys and representable lengths yields exactly that entry
list back. (`flush_data` is applied to one concrete iteration order of the
`HashMap`; this lemma holds for every such order.) -/
theorem get_saved_flush_data (m : CoreMap) (hnd : (m.map fun p => p.1).Nodup)
    (hlen : m.length < 2 ^ 64)
    (hsz : ∀ p ∈ m, p.1.length < 2 ^ 64 ∧ p.2.get_blob.length < 2 ^ 64) :
    get_saved (FileRead.found (flush_data m)) = Except.ok (some m) := by
  have hke : ∀ x ∈ m.map fun p => p.1, x.length < 2 ^ 64 := by
    intro x hx
    obtain ⟨p, hp, rfl⟩ := List.mem_map.mp hx
    exact (hsz p hp).1
  have hve : ∀ x ∈ m.map fun p => p.2.get_blob, x.length < 2 ^ 64 := by
    intro x hx
    obtain ⟨p, hp, rfl⟩ := List.mem_map.mp hx
    exact (hsz p hp).2
  have hparse := parseDiskStore_ser (m.map fun p => p.1)
    (m.map fun p => p.2.get_blob) (by simpa using hlen) (by simpa using hlen)
    hke hve
  have hgs : get_saved (FileRead.found (flush_data m))
      = Except.ok (some (tableFromPairs
          ((m.map fun p => p.1).zip (m.map fun p => p.2.get_blob)))) := by
    simp [get_saved, flush_data, hparse]
  rw [hgs]
  have hzip : (m.map fun p => p.1).zip (m.map fun p => p.2.get_blob)
      = m.map fun p => (p.1, p.2.get_blob) := List.zip_map' _ _ m
  rw [hzip]
  have hnd2 : ((m.map fun p => (p.1, p.2.get_blob)).map fun q => q.1).Nodup := by
    simpa [List.map_map, Function.comp] using hnd
  rw [tableFromPairs_eq _ hnd2]
  have hid : (m.map fun p => (p.1, p.2.get_blob)).map
      (fun q => (q.1, Data.from_blob q.2)) = m := by
    rw [List.map_map]
    have hcomp : ((fun q : Bytes × Bytes => (q.1, Data.from_blob q.2))
        ∘ fun p : Bytes × Data => (p.1, p.2.get_blob)) = id := by
      funext p
      rfl
    rw [hcomp, List.map_id]
  rw [hid]

/-- C4 (amended): encode/decode round-trip at the table level. The source
`flush_data` iterates a randomized-order `std` `HashMap`, so the encoder
may emit a table's entries in any order; `tOrd` below ranges over all such
iteration orders (permutations of the table). Decoding the bytes produced
by encoding a table `t` under any iteration order yields a table with
exactly the same mapping as `t` (keys distinct, lengths representable).
Conversely, for every bincode-parseable stored file, re-encoding the table
decoded from it — again under any iteration order — produces a file that
decodes back to a table with the same mapping as the decoded one.
Byte-for-byte reproduction of the original file is not guaranteed. -/
theorem c4_roundtrip (t tOrd : CoreMap) (bs : List Nat) (ks vs : List Bytes)
    (rest : List Nat) (tOrd2 : CoreMap) :
    (tOrd.Perm t → (t.map fun p => p.1).Nodup → t.length < 2 ^ 64 →
      (∀ p ∈ t, p.1.length < 2 ^ 64 ∧ p.2.get_blob.length < 2 ^ 64) →
      get_saved (FileRead.found (flush_data tOrd)) = Except.ok (some tOrd) ∧
        ∀ k, hmGet tOrd k = hmGet t k) ∧
    (parseDiskStore bs = some ((ks, vs), rest) →
      tOrd2.Perm (tableFromPairs (ks.zip vs)) → tOrd2.length < 2 ^ 64 →
      (∀ p ∈ tOrd2, p.1.length < 2 ^ 64 ∧ p.2.get_blob.length < 2 ^ 64) →
      get_saved (FileRead.found bs)
          = Except.ok (some (tableFromPairs (ks.zip vs))) ∧
        get_saved (FileRead.found (flush_data tOrd2)) = Except.ok (some tOrd2) ∧
        ∀ k, hmGet tOrd2 k = hmGet (tableFromPairs (ks.zip vs)) k) := by
  constructor
  · intro hperm hnd hlen hsz
    have hndO : (tOrd.map fun p => p.1).Nodup :=
      ((hperm.map fun p => p.1).nodup_iff).mpr hnd
    refine ⟨get_saved_flush_data tOrd hndO ?_ ?_, fun k => hmGet_perm tOrd t hperm hndO k⟩
    · rw [hperm.length_eq]
      exact hlen
    · intro p hp
      exact hsz p (hperm.mem_iff.mp hp)
  · intro hp hperm hlen2 hsz2
    have hndT : ((tableFromPairs (ks.zip vs)).map fun p => p.1).Nodup :=
      tableFromPairs_keys_nodup _
    have hndO : (tOrd2.map fun p => p.1).Nodup :=
      ((hperm.map fun p => p.1).nodup_iff).mpr hndT
    refine ⟨by simp [get_saved, hp], get_saved_flush_data tOrd2 hndO hlen2 hsz2,
      fun k => hmGet_perm tOrd2 _ hperm hndO k⟩

/-- C4 witness: encoding the two-entry table {"a" ↦ "1", "b" ↦ "2"} in the
reversed iteration order still decodes to those entries and reads back the
same mapping; and the file for keys ["a","b"] / values ["1","2"] decodes,
and re-encoding its table under the reversed order decodes back to the
same entries. -/
theorem c4_roundtrip_witness :
    get_saved (FileRead.found (flush_data
        [([98], Data.from_blob [50]), ([97], Data.from_blob [49])]))
      = Except.ok (some [([98], Data.from_blob [50]), ([97], Data.from_blob [49])]) ∧
    hmGet [([98], Data.from_blob [50]), ([97], Data.from_blob [49])] [97]
      = hmGet [([97], Data.from_blob [49]), ([98], Data.from_blob [50])] [97] ∧
    get_saved (FileRead.found (serDiskStore ([[97], [98]], [[49], [50]])))
      = Except.ok
          (some (tableFromPairs (([[97], [98]] : List Bytes).zip [[49], [50]]))) := by
  have hA := (c4_roundtrip
    [([97], Data.from_blob [49]), ([98], Data.from_blob [50])]
    [([98], Data.from_blob [50]), ([97], Data.from_blob [49])]
    (serDiskStore ([[97], [98]], [[49], [50]])) [[97], [98]] [[49], [50]] []
    [([98], Data.from_blob [50]), ([97], Data.from_blob [49])]).1
    (by decide) (by decide) (by decide) (by decide)
  have hB := (c4_roundtrip
    [([97], Data.from_blob [49]), ([98], Data.from_blob [50])]
    [([98], Data.from_blob [50]), ([97], Data.from_blob [49])]
    (serDiskStore ([[97], [98]], [[49], [50]])) [[97], [98]] [[49], [50]] []
    [([98], Data.from_blob [50]), ([97], Data.from_blob [49])]).2
    (by decide) (by decide) (by decide) (by decide)
  exact ⟨hA.1, hA.2 [97], hB.1⟩

end TDB
